import Mathlib

/-!
# GMS-Feature-Correspondence: shallow embedding and verification

A shallow embedding of the GMS (grid-based motion statistics) feature-
correspondence filter declared in `src/include/gms.h`, together with proofs
of the documented properties.

The repository ships only the header `gms.h`: the class declaration, the
inline `computeOffset`, the neighbour-delta tables `_neighbour_x` /
`_neighbour_y`, the constant `_thresh = 0.15`, and `#define N 10`.  The
bodies of `getGridIdxFromPoint`, `assignMatchesToCells`, `filterMatches`,
`computeInliers`, `init` and `run` are not in the repository, so those
bodies are modelled from the specification (each such definition says so in
its doc comment); signatures and constants follow the header.

Machine arithmetic notes: `cv::Point` carries integer pixel coordinates
(modelled with `ℕ`, pixel coordinates being non-negative); the offset
parameters of `getGridIdxFromPoint` are declared `const int&` in the header,
so a fractional (`float`) offset argument is converted to `int` — truncated
toward zero — at the call boundary.  `float`/`double` values `0.0`, `0.5`,
`0.15` are modelled exactly by rationals.
-/

namespace GMS

/-- Grid dimension: `#define N 10` in `gms.h`. -/
def N : ℕ := 10

/-- A 2D pixel location (`cv::Point`, integer coordinates; keypoint pixel
coordinates are non-negative). -/
structure Point where
  x : ℕ
  y : ℕ
  deriving DecidableEq

/-- A candidate correspondence (`cv::DMatch`): an index into the image-1
keypoint list (`queryIdx`) and an index into the image-2 keypoint list
(`trainIdx`). -/
structure DMatch where
  queryIdx : ℕ
  trainIdx : ℕ
  deriving DecidableEq

/-- Keypoint cell matching description: the struct `cellMatch` of `gms.h`. -/
structure cellMatch where
  /-- Source cell index -/
  src : ℕ
  /-- Destination cell index -/
  dst : ℕ
  /-- Source keypoint -/
  kp_1 : Point
  /-- Destination keypoint -/
  kp_2 : Point
  /-- The underlying DMatch -/
  m : DMatch
  deriving DecidableEq

/-- Clamp an integer to a grid coordinate in `[0, N-1]` (the spec's
`clamp(·, 0, N−1)`). -/
def clampToGrid (z : ℤ) : ℕ :=
  if z < 0 then 0 else if (N : ℤ) - 1 < z then N - 1 else z.toNat

/-- Modelled from the spec: the body of `GMS::getGridIdxFromPoint` is not in
the repository (only its declaration, `gms.h` line 131).  The formula follows
spec §4.1 (`row = clamp(floor(point.y / cellH) + offsetY, 0, N−1)`, raveled
row-major), while the offset parameters are kept integer, exactly as the
declared signature `const int& off_x, const int& off_y` dictates.  `pt.y / dh`
is C integer division of non-negative ints, i.e. `ℕ` division. -/
def getGridIdxFromPoint (pt : Point) (off_x off_y : ℤ) (dw dh : ℕ) : ℕ :=
  clampToGrid ((pt.y / dh : ℕ) + off_y) * N + clampToGrid ((pt.x / dw : ℕ) + off_x)

/-- Modelled from the spec: the GridPartitioner function of spec §4.1 as
written there, with genuinely fractional offsets:
`row = clamp(floor((point.y / cellH) + offsetY), 0, N−1)`,
`col = clamp(floor((point.x / cellW) + offsetX), 0, N−1)`, result
`row·N + col`.  Stated separately from `getGridIdxFromPoint` so the two can
be compared. -/
def cellIndexOf (pt : Point) (offX offY : ℚ) (dw dh : ℕ) : ℕ :=
  clampToGrid ⌊(pt.y : ℚ) / (dh : ℚ) + offY⌋ * N +
    clampToGrid ⌊(pt.x : ℚ) / (dw : ℚ) + offX⌋

/-- The float literal `0.5`, exactly; given as a rational already in lowest
terms so that it evaluates structurally (the lemma `half_eq` below checks it
is indeed `1/2`). -/
def half : ℚ := ⟨1, 2, by decide, Nat.coprime_one_left 2⟩

/-- `GMS::computeOffset` (`gms.h` lines 151–155, verbatim):
`off_x = (k==0 || k==1) ? 0.0 : 0.5; off_y = (k==0 || k==2) ? 0.0 : 0.5;`.
The float values `0.0` and `0.5` are exactly representable, so `ℚ` models
them faithfully. -/
def computeOffset (k : ℕ) : ℚ × ℚ :=
  ((if k = 0 ∨ k = 1 then 0 else half), (if k = 0 ∨ k = 2 then 0 else half))

/-- C++ float-to-int conversion: truncation toward zero, which on an exact
rational is `num.tdiv den`.  This happens at every call of
`getGridIdxFromPoint` whose offset arguments are the `float` offsets produced
by `computeOffset`, because the parameters are declared `const int&`. -/
def cppFloatToInt (q : ℚ) : ℤ :=
  q.num.tdiv (q.den : ℤ)

/-- Modelled from the spec: the body of `GMS::assignMatchesToCells` is not in
the repository (declaration at `gms.h` lines 83–87).  Per spec §4.2: for the
offset configuration `k`, each `DMatch` is assigned to the `(src, dst)` cell
pair of its two keypoints, producing one `cellMatch` per candidate.  Keypoint
lookups are total (`getD` with default `⟨0,0⟩`).  `dw1 × dh1` and `dw2 × dh2`
are the cell sizes of the two images.  The float offsets of `computeOffset`
are truncated by the `const int&` call boundary of `getGridIdxFromPoint`. -/
def assignedCells (ms : List DMatch) (kp_1 kp_2 : List Point) (k : ℕ)
    (dw1 dh1 dw2 dh2 : ℕ) : List cellMatch :=
  ms.map fun m =>
    let p1 := kp_1.getD m.queryIdx ⟨0, 0⟩
    let p2 := kp_2.getD m.trainIdx ⟨0, 0⟩
    let off := computeOffset k
    { src := getGridIdxFromPoint p1 (cppFloatToInt off.1) (cppFloatToInt off.2) dw1 dh1
      dst := getGridIdxFromPoint p2 (cppFloatToInt off.1) (cppFloatToInt off.2) dw2 dh2
      kp_1 := p1
      kp_2 := p2
      m := m }

/-- The `cellBins` entry `bins[src][dst]` (typedef at `gms.h` line 31): the
number of assigned cell matches whose cell pair is `(src, dst)`. -/
def cellBinsOf (cms : List cellMatch) (src dst : ℕ) : ℕ :=
  cms.countP fun c => c.src = src ∧ c.dst = dst

/-- The `cellMatches` entry for a source cell (typedef at `gms.h` line 28):
the list of assigned cell matches whose source cell is `src`. -/
def cellMatchIndexOf (cms : List cellMatch) (src : ℕ) : List cellMatch :=
  cms.filter fun c => c.src = src

/-- Row of a raveled (row-major) cell index. -/
def cellRow (c : ℕ) : ℕ := c / N

/-- Column of a raveled (row-major) cell index. -/
def cellCol (c : ℕ) : ℕ := c % N

/-- X-axis cell neighbour deltas: `_neighbour_x` of `gms.h` line 163. -/
def neighbour_x : List ℤ := [-1, 0, 1, -1, 0, 1, -1, 0, 1]

/-- Y-axis cell neighbour deltas (premultiplied by `N`): `_neighbour_y` of
`gms.h` line 165. -/
def neighbour_y : List ℤ := [-(N : ℤ), -(N : ℤ), -(N : ℤ), 0, 0, 0, (N : ℤ), (N : ℤ), (N : ℤ)]

/-- Modelled from the spec: the `j`-th neighbour cell pair of `(src, dst)`.
The raveled deltas come from the header's `_neighbour_x` / `_neighbour_y`
tables; spec §4.3 step 3 makes a neighbour whose row or column falls outside
`[0, N−1]` contribute nothing (no wrap-around), so such a `j` yields `none`. -/
def nbrPair (src dst j : ℕ) : Option (ℕ × ℕ) :=
  let dx := neighbour_x.getD j 0
  let dy := neighbour_y.getD j 0
  let dr := dy / (N : ℤ)
  if 0 ≤ (cellRow src : ℤ) + dr ∧ (cellRow src : ℤ) + dr < N ∧
     0 ≤ (cellCol src : ℤ) + dx ∧ (cellCol src : ℤ) + dx < N ∧
     0 ≤ (cellRow dst : ℤ) + dr ∧ (cellRow dst : ℤ) + dr < N ∧
     0 ≤ (cellCol dst : ℤ) + dx ∧ (cellCol dst : ℤ) + dx < N
  then some (((src : ℤ) + dx + dy).toNat, ((dst : ℤ) + dx + dy).toNat)
  else none

/-- The bin count contributed by the `j`-th neighbour of `(src, dst)`:
`0` when that neighbour falls outside the grid. -/
def nbrContribution (bins : ℕ → ℕ → ℕ) (src dst j : ℕ) : ℕ :=
  match nbrPair src dst j with
  | some p => bins p.1 p.2
  | none => 0

/-- Modelled from the spec: the neighbourhood-support score of spec §4.3
step 3 — the sum of `bins` over the 3×3 neighbourhood of `(src, dst)` given
by the header's 9 fixed deltas, out-of-grid neighbours contributing `0`. -/
def neighborhoodScore (bins : ℕ → ℕ → ℕ) (src dst : ℕ) : ℕ :=
  ∑ j ∈ Finset.range 9, nbrContribution bins src dst j

/-- The sum of the nonzero entries of the bin matrix over the `N² × N²`
index range (zero entries contribute nothing to a sum, so this is written as
the sum over all entries). -/
def binSum (bins : ℕ → ℕ → ℕ) : ℕ :=
  ∑ s ∈ Finset.range (N * N), ∑ d ∈ Finset.range (N * N), bins s d

/-- The number of nonzero entries of the bin matrix over the `N² × N²`
index range. -/
def nonzeroBinCount (bins : ℕ → ℕ → ℕ) : ℕ :=
  ∑ s ∈ Finset.range (N * N), ∑ d ∈ Finset.range (N * N), if bins s d ≠ 0 then 1 else 0

/-- Modelled from the spec: `meanBinOccupancy` of spec §4.3 step 4 — the
average of the nonzero entries of the bin matrix (`0` when every bin is
empty, by rational division-by-zero convention). -/
def meanBinOccupancy (bins : ℕ → ℕ → ℕ) : ℚ :=
  (binSum bins : ℚ) / (nonzeroBinCount bins : ℚ)

/-- Inlier thresholding factor: `_thresh = 0.15` of `gms.h` line 167
(`0.15` modelled exactly as a rational). -/
def _thresh : ℚ := 0.15

/-- Modelled from the spec: the acceptance test of spec §4.3 steps 5–6,
`neighborhoodScore > _thresh * sqrt(meanBinOccupancy)`, written in the
equivalent cross-multiplied integer form
`9 * binSum < 400 * nonzeroBinCount * score²`
(`0.15² = 9/400`), which machine integers decide exactly; the equivalence
with the square-root form over `ℝ` is proved below
(`accept_iff_sqrt_threshold`). -/
def acceptCellPair (bins : ℕ → ℕ → ℕ) (src dst : ℕ) : Bool :=
  decide (9 * binSum bins <
    400 * nonzeroBinCount bins * neighborhoodScore bins src dst ^ 2)

/-- Index of the maximum of `f` over `{0, …, n}`, the lowest index winning
ties (a scan that replaces the incumbent only on a strictly larger value). -/
def argmaxUpTo (f : ℕ → ℕ) : ℕ → ℕ
  | 0 => 0
  | n + 1 => if f (n + 1) > f (argmaxUpTo f n) then n + 1 else argmaxUpTo f n

/-- Modelled from the spec: `dst* = argmax_dst bins[src][dst]` of spec §4.3
step 1, ties broken by the lowest destination-cell index. -/
def dstStar (bins : ℕ → ℕ → ℕ) (src : ℕ) : ℕ :=
  argmaxUpTo (bins src) (N * N - 1)

/-- Modelled from the spec: one offset configuration's pass of
`GMS::filterMatches` / `GMS::computeInliers` (bodies not in the repository;
declarations at `gms.h` lines 99–104 and 115–119).  Per spec §4.3–4.4: every
source cell with at least one assigned match gets its best destination cell
`dst*`; a cell with `bins[src][dst*] = 0` is skipped; if the pair is accepted,
every cell match of the source cell whose destination is `dst*` is
collected. -/
def collectInliers (cms : List cellMatch) : List DMatch :=
  (List.range (N * N)).flatMap fun src =>
    let idx := cellMatchIndexOf cms src
    if idx.isEmpty then []
    else
      let d := dstStar (cellBinsOf cms) src
      if cellBinsOf cms src d = 0 then []
      else if acceptCellPair (cellBinsOf cms) src d then
        (idx.filter fun c => c.dst = d).map cellMatch.m
      else []

/-- Whether two candidate matches have the same identity: the same pair of
keypoint indices into the two keypoint lists. -/
def sameMatchKey (a b : DMatch) : Bool :=
  a.queryIdx = b.queryIdx ∧ a.trainIdx = b.trainIdx

/-- Modelled from the spec: the InlierCollector's deduplication (spec §4.4) —
walk the collected matches keeping the first occurrence of each
keypoint-index pair, carrying the set of matches already kept in `seen`. -/
def dedupMatchesAux (seen : List DMatch) : List DMatch → List DMatch
  | [] => []
  | m :: t =>
      if seen.any fun x => sameMatchKey x m then dedupMatchesAux seen t
      else m :: dedupMatchesAux (m :: seen) t

/-- Deduplicate a list of matches, keeping the first occurrence of each
keypoint-index pair. -/
def dedupMatches (l : List DMatch) : List DMatch :=
  dedupMatchesAux [] l

/-- Modelled from the spec: the filtering pipeline of `GMS::run` (body not in
the repository; declaration at `gms.h` line 61) applied to a given candidate
set — assign under each of the 4 offset configurations, score and collect
per configuration, and merge with deduplication into the final inlier set. -/
def runGMS (ms : List DMatch) (kp_1 kp_2 : List Point)
    (dw1 dh1 dw2 dh2 : ℕ) : List DMatch :=
  dedupMatches <| (List.range 4).flatMap fun k =>
    collectInliers (assignedCells ms kp_1 kp_2 k dw1 dh1 dw2 dh2)

/-- A raster image, reduced to what the core observes: its pixel
dimensions. -/
structure Image where
  width : ℕ
  height : ℕ
  deriving DecidableEq

/-- Whether an image is empty (no pixels). -/
def Image.isEmpty (im : Image) : Bool :=
  im.width = 0 ∨ im.height = 0

/-- The error class of the matcher: spec §7. -/
inductive GMSError where
  | invalidInput
  deriving DecidableEq

/-- The state stored by a successful `init`: borrowed references to the two
images (`_im1`, `_im2` of `gms.h` lines 159–161). -/
structure GMSState where
  im1 : Image
  im2 : Image
  deriving DecidableEq

/-- Whether a possibly-null image reference is null or empty. -/
def nullOrEmpty : Option Image → Bool
  | none => true
  | some im => im.isEmpty

/-- Modelled from the spec: the body of `GMS::init` is not in the repository
(declaration at `gms.h` line 55).  Per spec §6/§7: fail with `invalidInput`
when either supplied image is null or empty, otherwise store the two borrowed
images for the run. -/
def init (im1 im2 : Option Image) : Except GMSError GMSState :=
  match im1, im2 with
  | some i1, some i2 =>
      if i1.isEmpty ∨ i2.isEmpty then .error .invalidInput else .ok ⟨i1, i2⟩
  | _, _ => .error .invalidInput

/-- The term of spec §4.3 step 3, written exactly in the spec's row/column
language: the contribution of the `(dr, dc)`-shifted neighbour of the cell
pair `(src, dst)`, which is `0` as soon as a shifted row or column leaves
`[0, N−1]`. -/
def specNeighborhoodTerm (bins : ℕ → ℕ → ℕ) (src dst : ℕ) (dr dc : ℤ) : ℕ :=
  if 0 ≤ (cellRow src : ℤ) + dr ∧ (cellRow src : ℤ) + dr < N ∧
     0 ≤ (cellCol src : ℤ) + dc ∧ (cellCol src : ℤ) + dc < N ∧
     0 ≤ (cellRow dst : ℤ) + dr ∧ (cellRow dst : ℤ) + dr < N ∧
     0 ≤ (cellCol dst : ℤ) + dc ∧ (cellCol dst : ℤ) + dc < N
  then bins (((cellRow src : ℤ) + dr) * N + ((cellCol src : ℤ) + dc)).toNat
            (((cellRow dst : ℤ) + dr) * N + ((cellCol dst : ℤ) + dc)).toNat
  else 0

/-- A concrete bin matrix used as a test fixture: 7 matches in the cell pair
`(0, 0)`, nothing anywhere else. -/
def binsA : ℕ → ℕ → ℕ := fun s d => if s = 0 ∧ d = 0 then 7 else 0

/-- `binsA` with one extra match added in the neighbour cell pair
`(11, 11)`. -/
def binsB : ℕ → ℕ → ℕ := fun s d =>
  if s = 0 ∧ d = 0 then 7 else if s = 11 ∧ d = 11 then 1 else 0

/-! ## Basic facts about the grid partition -/

theorem half_eq : half = 1 / 2 := by
  rw [half, Rat.mk'_eq_divInt, Rat.divInt_eq_div]
  norm_num

theorem clampToGrid_le (z : ℤ) : clampToGrid z ≤ N - 1 := by
  unfold clampToGrid N
  split_ifs <;> omega

theorem getGridIdxFromPoint_lt (pt : Point) (off_x off_y : ℤ) (dw dh : ℕ) :
    getGridIdxFromPoint pt off_x off_y dw dh < N * N := by
  unfold getGridIdxFromPoint
  have h1 := clampToGrid_le ((pt.y / dh : ℕ) + off_y)
  have h2 := clampToGrid_le ((pt.x / dw : ℕ) + off_x)
  unfold N at *
  omega

theorem cppFloatToInt_zero : cppFloatToInt 0 = 0 := by decide

theorem cppFloatToInt_half : cppFloatToInt half = 0 := by decide

/-- C5.  The offset parameters of `getGridIdxFromPoint` are declared
`const int&`, so the fractional offsets produced by `computeOffset`
(`0.0` or `0.5` per axis) are truncated toward zero — to `0` — at the call
boundary: the cell index computed under any of the 4 offset configurations
equals the cell index computed with offsets `(0, 0)`, and all four grid
configurations induce the identical partition of points into cells. -/
theorem gridIdx_offset_truncation (pt : Point) (dw dh k : ℕ) :
    getGridIdxFromPoint pt (cppFloatToInt (computeOffset k).1)
        (cppFloatToInt (computeOffset k).2) dw dh =
      getGridIdxFromPoint pt 0 0 dw dh := by
  unfold computeOffset
  split_ifs <;> simp [cppFloatToInt_zero, cppFloatToInt_half]

/-- C3 (counterexample).  As stated the claim is false: `getGridIdxFromPoint`
cannot compute with a fractional offset, because its `const int&` parameters
truncate the offset at the call boundary.  At the point `(0, 7)` with cell
sizes `10 × 10` and the half-cell offsets of configuration 3, the function
returns cell `0`, while the claimed formula
(`row = clamp(floor(y/cellH + offsetY))`, applied to the fractional offsets
themselves, as `cellIndexOf` does) gives cell `10`. -/
theorem gridIdx_fractional_counterexample :
    getGridIdxFromPoint ⟨0, 7⟩ (cppFloatToInt (computeOffset 3).1)
        (cppFloatToInt (computeOffset 3).2) 10 10 ≠
      cellIndexOf ⟨0, 7⟩ (computeOffset 3).1 (computeOffset 3).2 10 10 := by
  have hoff : computeOffset 3 = (half, half) := by norm_num [computeOffset]
  have hL : getGridIdxFromPoint ⟨0, 7⟩ (cppFloatToInt (computeOffset 3).1)
      (cppFloatToInt (computeOffset 3).2) 10 10 = 0 := by
    rw [hoff]
    simp only [cppFloatToInt_half]
    decide
  have hR : cellIndexOf ⟨0, 7⟩ (computeOffset 3).1 (computeOffset 3).2 10 10 = 10 := by
    rw [hoff]
    unfold cellIndexOf clampToGrid N
    rw [half_eq]
    norm_num
  rw [hL, hR]
  decide

/-- C3 (amended).  With the offset arguments truncated to integers — as the
`const int&` signature of `getGridIdxFromPoint` forces on every caller — the
claim holds: for every point, integer offsets, and positive cell dimensions,
`getGridIdxFromPoint` returns `row·N + col` with
`row = clamp(floor(point.y / cellH + offsetY), 0, N−1)` and
`col = clamp(floor(point.x / cellW + offsetX), 0, N−1)` (this is
`cellIndexOf` at the truncated offsets), and the result always lies in
`[0, N²)` with `N = 10`. -/
theorem gridIdx_int_offsets (pt : Point) (ox oy : ℤ) (dw dh : ℕ)
    (hw : 0 < dw) (hh : 0 < dh) :
    getGridIdxFromPoint pt ox oy dw dh = cellIndexOf pt (ox : ℚ) (oy : ℚ) dw dh ∧
    getGridIdxFromPoint pt ox oy dw dh < N ^ 2 := by
  constructor
  · unfold getGridIdxFromPoint cellIndexOf
    rw [Int.floor_add_int, Int.floor_add_int,
      Rat.floor_natCast_div_natCast, Rat.floor_natCast_div_natCast]
    push_cast
    rfl
  · have := getGridIdxFromPoint_lt pt ox oy dw dh
    simpa [pow_two] using this

theorem gridIdx_int_offsets_witness :
    0 < 10 ∧ 0 < 7 ∧
    (getGridIdxFromPoint ⟨23, 71⟩ 1 (-2) 10 7 =
        cellIndexOf ⟨23, 71⟩ ((1 : ℤ) : ℚ) (((-2) : ℤ) : ℚ) 10 7 ∧
      getGridIdxFromPoint ⟨23, 71⟩ 1 (-2) 10 7 < N ^ 2) :=
  ⟨by decide, by decide, gridIdx_int_offsets ⟨23, 71⟩ 1 (-2) 10 7 (by decide) (by decide)⟩

/-! ## The argmax scan and the per-configuration scorer -/

theorem argmaxUpTo_le (f : ℕ → ℕ) (n : ℕ) : argmaxUpTo f n ≤ n := by
  induction n with
  | zero => simp [argmaxUpTo]
  | succ n ih =>
    unfold argmaxUpTo
    split <;> omega

theorem le_argmaxUpTo (f : ℕ → ℕ) (n d : ℕ) (hd : d ≤ n) :
    f d ≤ f (argmaxUpTo f n) := by
  induction n with
  | zero =>
    have : d = 0 := by omega
    subst this
    simp [argmaxUpTo]
  | succ n ih =>
    unfold argmaxUpTo
    split
    next h =>
      rcases Nat.lt_succ_iff_lt_or_eq.mp (Nat.lt_succ_of_le hd) with h' | h'
      · exact le_of_lt (lt_of_le_of_lt (ih (by omega)) h)
      · subst h'
        exact le_refl _
    next h =>
      rcases Nat.lt_succ_iff_lt_or_eq.mp (Nat.lt_succ_of_le hd) with h' | h'
      · exact ih (by omega)
      · subst h'
        omega

theorem argmaxUpTo_lowest (f : ℕ → ℕ) (n d : ℕ) (hd : d < argmaxUpTo f n) :
    f d < f (argmaxUpTo f n) := by
  induction n with
  | zero => simp [argmaxUpTo] at hd
  | succ n ih =>
    unfold argmaxUpTo at hd ⊢
    split
    next h =>
      split at hd
      · exact lt_of_le_of_lt (le_argmaxUpTo f n d (by omega)) h
      · omega
    next h =>
      split at hd
      · omega
      · exact ih hd

theorem dstStar_lt (bins : ℕ → ℕ → ℕ) (src : ℕ) : dstStar bins src < N * N := by
  have := argmaxUpTo_le (bins src) (N * N - 1)
  unfold dstStar N at *
  omega

theorem dstStar_le (bins : ℕ → ℕ → ℕ) (src d : ℕ) (hd : d < N * N) :
    bins src d ≤ bins src (dstStar bins src) :=
  le_argmaxUpTo (bins src) (N * N - 1) d (by unfold N at *; omega)

theorem dstStar_lowest (bins : ℕ → ℕ → ℕ) (src d : ℕ) (hd : d < dstStar bins src) :
    bins src d < bins src (dstStar bins src) :=
  argmaxUpTo_lowest (bins src) (N * N - 1) d hd

theorem cellBinsOf_dstStar_ne_zero (cms : List cellMatch) (src : ℕ)
    (hdst : ∀ c ∈ cms, c.dst < N * N)
    (hne : cellMatchIndexOf cms src ≠ []) :
    cellBinsOf cms src (dstStar (cellBinsOf cms) src) ≠ 0 := by
  obtain ⟨c, hc⟩ := List.exists_mem_of_ne_nil _ hne
  have hcm : c ∈ cms ∧ c.src = src := by
    have := List.mem_filter.mp hc
    simpa using this
  have h1 : 0 < cellBinsOf cms src c.dst := by
    rw [cellBinsOf, List.countP_pos]
    exact ⟨c, hcm.1, by simp [hcm.2]⟩
  have h2 := dstStar_le (cellBinsOf cms) src c.dst (hdst c hcm.1)
  omega

theorem mem_collectInliers_iff (cms : List cellMatch) (m : DMatch)
    (hdst : ∀ c ∈ cms, c.dst < N * N) :
    m ∈ collectInliers cms ↔ ∃ src, src < N * N ∧
      cellMatchIndexOf cms src ≠ [] ∧
      acceptCellPair (cellBinsOf cms) src (dstStar (cellBinsOf cms) src) = true ∧
      m ∈ ((cellMatchIndexOf cms src).filter fun c =>
        c.dst = dstStar (cellBinsOf cms) src).map cellMatch.m := by
  unfold collectInliers
  rw [List.mem_flatMap]
  constructor
  · rintro ⟨src, hsrc, hm⟩
    rw [List.mem_range] at hsrc
    refine ⟨src, hsrc, ?_⟩
    by_cases h1 : (cellMatchIndexOf cms src).isEmpty
    · simp [h1] at hm
    · by_cases h2 : cellBinsOf cms src (dstStar (cellBinsOf cms) src) = 0
      · simp [h1, h2] at hm
      · by_cases h3 : acceptCellPair (cellBinsOf cms) src (dstStar (cellBinsOf cms) src) = true
        · refine ⟨by simpa using h1, h3, ?_⟩
          simpa [h1, h2, h3] using hm
        · simp [h1, h2, h3] at hm
  · rintro ⟨src, hsrc, hne, hacc, hm⟩
    refine ⟨src, List.mem_range.mpr hsrc, ?_⟩
    have h1 : ¬ (cellMatchIndexOf cms src).isEmpty := by simpa using hne
    have h2 := cellBinsOf_dstStar_ne_zero cms src hdst hne
    simpa [h1, h2, hacc] using hm

/-- C1.  Per offset configuration and source cell `src` with at least one
assigned match, the scorer's `dst*` maximises `bins[src][·]` over all
destination cells, ties broken by the lowest destination index, and a
candidate match lands in the per-configuration output exactly when its
source cell is occupied, the pair `(src, dst*)` passes the acceptance test,
and the candidate is one of the source cell's matches with destination
`dst*`. -/
theorem scorer_selects_argmax_and_collects (cms : List cellMatch) (m : DMatch)
    (hdst : ∀ c ∈ cms, c.dst < N * N) :
    (∀ src d, d < N * N →
      cellBinsOf cms src d ≤ cellBinsOf cms src (dstStar (cellBinsOf cms) src)) ∧
    (∀ src d, d < dstStar (cellBinsOf cms) src →
      cellBinsOf cms src d < cellBinsOf cms src (dstStar (cellBinsOf cms) src)) ∧
    (∀ src, dstStar (cellBinsOf cms) src < N * N) ∧
    (m ∈ collectInliers cms ↔ ∃ src, src < N * N ∧
      cellMatchIndexOf cms src ≠ [] ∧
      acceptCellPair (cellBinsOf cms) src (dstStar (cellBinsOf cms) src) = true ∧
      m ∈ ((cellMatchIndexOf cms src).filter fun c =>
        c.dst = dstStar (cellBinsOf cms) src).map cellMatch.m) :=
  ⟨fun src d hd => dstStar_le (cellBinsOf cms) src d hd,
   fun src d hd => dstStar_lowest (cellBinsOf cms) src d hd,
   fun src => dstStar_lt (cellBinsOf cms) src,
   mem_collectInliers_iff cms m hdst⟩

theorem scorer_selects_argmax_and_collects_witness :
    (∀ c ∈ ([⟨0, 0, ⟨0, 0⟩, ⟨0, 0⟩, ⟨0, 0⟩⟩] : List cellMatch), c.dst < N * N) ∧
    ((∀ src d, d < N * N →
      cellBinsOf [⟨0, 0, ⟨0, 0⟩, ⟨0, 0⟩, ⟨0, 0⟩⟩] src d ≤
        cellBinsOf [⟨0, 0, ⟨0, 0⟩, ⟨0, 0⟩, ⟨0, 0⟩⟩] src
          (dstStar (cellBinsOf [⟨0, 0, ⟨0, 0⟩, ⟨0, 0⟩, ⟨0, 0⟩⟩]) src)) ∧
    (∀ src d, d < dstStar (cellBinsOf [⟨0, 0, ⟨0, 0⟩, ⟨0, 0⟩, ⟨0, 0⟩⟩]) src →
      cellBinsOf [⟨0, 0, ⟨0, 0⟩, ⟨0, 0⟩, ⟨0, 0⟩⟩] src d <
        cellBinsOf [⟨0, 0, ⟨0, 0⟩, ⟨0, 0⟩, ⟨0, 0⟩⟩] src
          (dstStar (cellBinsOf [⟨0, 0, ⟨0, 0⟩, ⟨0, 0⟩, ⟨0, 0⟩⟩]) src)) ∧
    (∀ src, dstStar (cellBinsOf [⟨0, 0, ⟨0, 0⟩, ⟨0, 0⟩, ⟨0, 0⟩⟩]) src < N * N) ∧
    ((⟨0, 0⟩ : DMatch) ∈ collectInliers [⟨0, 0, ⟨0, 0⟩, ⟨0, 0⟩, ⟨0, 0⟩⟩] ↔
      ∃ src, src < N * N ∧
      cellMatchIndexOf [⟨0, 0, ⟨0, 0⟩, ⟨0, 0⟩, ⟨0, 0⟩⟩] src ≠ [] ∧
      acceptCellPair (cellBinsOf [⟨0, 0, ⟨0, 0⟩, ⟨0, 0⟩, ⟨0, 0⟩⟩]) src
        (dstStar (cellBinsOf [⟨0, 0, ⟨0, 0⟩, ⟨0, 0⟩, ⟨0, 0⟩⟩]) src) = true ∧
      (⟨0, 0⟩ : DMatch) ∈ ((cellMatchIndexOf [⟨0, 0, ⟨0, 0⟩, ⟨0, 0⟩, ⟨0, 0⟩⟩] src).filter
        fun c => c.dst = dstStar (cellBinsOf [⟨0, 0, ⟨0, 0⟩, ⟨0, 0⟩, ⟨0, 0⟩⟩]) src).map
          cellMatch.m)) :=
  ⟨by decide, scorer_selects_argmax_and_collects _ _ (by decide)⟩

/-! ## The adaptive threshold -/

theorem neighbour_tables (j : ℕ) :
    (neighbour_x.getD j 0 = -1 ∨ neighbour_x.getD j 0 = 0 ∨ neighbour_x.getD j 0 = 1) ∧
    (neighbour_y.getD j 0 = -10 ∨ neighbour_y.getD j 0 = 0 ∨ neighbour_y.getD j 0 = 10) := by
  by_cases hj : j < 9
  · interval_cases j <;> exact ⟨by decide, by decide⟩
  · constructor
    · rw [List.getD_eq_default]
      · simp
      · simp [neighbour_x]
        omega
    · rw [List.getD_eq_default]
      · simp
      · simp [neighbour_y]
        omega

theorem nbrPair_mem_grid (src dst j s t : ℕ)
    (h : nbrPair src dst j = some (s, t)) : s < N * N ∧ t < N * N := by
  obtain ⟨hx, hy⟩ := neighbour_tables j
  rcases hx with hx | hx | hx <;> rcases hy with hy | hy | hy <;>
    (simp only [nbrPair, hx, hy, cellRow, cellCol, N] at h
     norm_num at h
     obtain ⟨hg, h1, h2⟩ := h
     constructor <;> simp only [N] <;> omega)

theorem nonzeroBinCount_pos_of_score_pos (bins : ℕ → ℕ → ℕ) (src dst : ℕ)
    (h : 0 < neighborhoodScore bins src dst) : 0 < nonzeroBinCount bins := by
  have hex : ∃ j ∈ Finset.range 9, 0 < nbrContribution bins src dst j := by
    by_contra hall
    push_neg at hall
    have hz : neighborhoodScore bins src dst = 0 :=
      Finset.sum_eq_zero fun j hj => by have := hall j hj; omega
    omega
  obtain ⟨j, _, hj⟩ := hex
  rcases hp : nbrPair src dst j with _ | p
  · simp [nbrContribution, hp] at hj
  · have hbp : 0 < bins p.1 p.2 := by simpa [nbrContribution, hp] using hj
    obtain ⟨hs, ht⟩ := nbrPair_mem_grid src dst j p.1 p.2 (by rw [hp])
    have hne : bins p.1 p.2 ≠ 0 := by omega
    have h1 : (1 : ℕ) ≤ ∑ d ∈ Finset.range (N * N), if bins p.1 d ≠ 0 then 1 else 0 := by
      have hle := Finset.single_le_sum (f := fun d => if bins p.1 d ≠ 0 then 1 else 0)
          (fun i _ => Nat.zero_le _) (Finset.mem_range.mpr ht)
      simp only [if_pos hne] at hle
      exact hle
    calc (0 : ℕ) < ∑ d ∈ Finset.range (N * N), if bins p.1 d ≠ 0 then 1 else 0 := h1
      _ ≤ ∑ s ∈ Finset.range (N * N), ∑ d ∈ Finset.range (N * N),
            if bins s d ≠ 0 then 1 else 0 :=
          Finset.single_le_sum
            (f := fun s => ∑ d ∈ Finset.range (N * N), if bins s d ≠ 0 then 1 else 0)
            (fun i _ => Nat.zero_le _) (Finset.mem_range.mpr hs)
      _ = nonzeroBinCount bins := rfl

/-- C2.  The pair `(src, dst)` is accepted exactly when its neighbourhood
score exceeds `0.15 · sqrt(meanBinOccupancy)`, where `meanBinOccupancy` is
the average of the nonzero bin entries — the sum of the nonzero entries
divided by the number of nonzero entries, not by the full `N²·N²` entry
count — and `0.15` is the fixed `_thresh` factor of `gms.h`. -/
theorem accept_iff_sqrt_threshold (bins : ℕ → ℕ → ℕ) (src dst : ℕ) :
    acceptCellPair bins src dst = true ↔
      (0.15 : ℝ) * Real.sqrt ((meanBinOccupancy bins : ℚ) : ℝ) <
        (neighborhoodScore bins src dst : ℝ) := by
  rw [acceptCellPair, decide_eq_true_eq]
  rcases Nat.eq_zero_or_pos (nonzeroBinCount bins) with hc | hc
  · have hs : neighborhoodScore bins src dst = 0 := by
      by_contra hs
      have := nonzeroBinCount_pos_of_score_pos bins src dst (by omega)
      omega
    have hm : meanBinOccupancy bins = 0 := by
      rw [meanBinOccupancy, hc]
      simp
    rw [hs, hc, hm]
    constructor
    · intro h
      exfalso
      rw [show (400 * 0 * 0 ^ 2 : ℕ) = 0 from by norm_num] at h
      omega
    · intro h
      exfalso
      rw [Nat.cast_zero, Rat.cast_zero, Real.sqrt_zero, mul_zero] at h
      exact lt_irrefl 0 h
  · have hM0 : (0 : ℝ) ≤ ((meanBinOccupancy bins : ℚ) : ℝ) := by
      rw [meanBinOccupancy]
      push_cast
      exact div_nonneg (Nat.cast_nonneg _) (Nat.cast_nonneg _)
    have hb0 : (0 : ℝ) ≤ (0.15 : ℝ) * Real.sqrt ((meanBinOccupancy bins : ℚ) : ℝ) :=
      mul_nonneg (by norm_num) (Real.sqrt_nonneg _)
    rw [show ((0.15 : ℝ) * Real.sqrt ((meanBinOccupancy bins : ℚ) : ℝ) <
          (neighborhoodScore bins src dst : ℝ)) ↔
        (((0.15 : ℝ) * Real.sqrt ((meanBinOccupancy bins : ℚ) : ℝ)) ^ 2 <
          (neighborhoodScore bins src dst : ℝ) ^ 2) from
      (pow_lt_pow_iff_left₀ hb0 (Nat.cast_nonneg _) two_ne_zero).symm]
    rw [mul_pow, Real.sq_sqrt hM0, meanBinOccupancy]
    rw [show ((0.15 : ℝ) ^ 2) = 9 / 400 by norm_num]
    push_cast
    have hcR : (0 : ℝ) < 400 * (nonzeroBinCount bins : ℝ) := by
      have h0 : (0 : ℝ) < (nonzeroBinCount bins : ℝ) := by exact_mod_cast hc
      linarith
    rw [div_mul_div_comm, div_lt_iff₀ hcR]
    rw [show (9 : ℝ) * (binSum bins : ℝ) = ((9 * binSum bins : ℕ) : ℝ) by push_cast; ring]
    rw [show (neighborhoodScore bins src dst : ℝ) ^ 2 * (400 * (nonzeroBinCount bins : ℝ)) =
        ((400 * nonzeroBinCount bins * neighborhoodScore bins src dst ^ 2 : ℕ) : ℝ) by
      push_cast; ring]
    rw [Nat.cast_lt]

/-! ## The 3×3 neighbourhood sum -/

theorem nbrContribution_eq_specTerm (bins : ℕ → ℕ → ℕ) (src dst j : ℕ) (dr dc : ℤ)
    (hx : neighbour_x.getD j 0 = dc) (hy : neighbour_y.getD j 0 = dr * 10) :
    nbrContribution bins src dst j = specNeighborhoodTerm bins src dst dr dc := by
  have hdr : dr * 10 / (((10 : ℕ) : ℤ)) = dr := by norm_num
  simp only [nbrContribution, nbrPair, specNeighborhoodTerm, hx, hy, cellRow, cellCol, N, hdr]
  split_ifs with hcond
  · dsimp only
    exact congrArg₂ bins (by omega) (by omega)
  · rfl

/-- C4.  The neighbourhood score is the sum, over the 9 fixed row/column
deltas `(dr, dc) ∈ [-1,1] × [-1,1]` of the header's `_neighbour_x` /
`_neighbour_y` tables, of the bin count at the shifted cell pair, where a
shifted cell whose row or column leaves `[0, N−1]` contributes `0`.  In
particular a missing neighbour of an edge cell never wraps around: for a
cell in column `0` (any `10·r`) the `dc = −1` terms vanish, for a cell in
column `N−1` (any `10·r + 9`) the `dc = 1` terms vanish, and likewise for
rows `0` (any `c % 10`) and `N−1` (any `90 + c % 10`) with `dr = ∓1`. -/
theorem neighborhood_score_rowcol (bins : ℕ → ℕ → ℕ) (src dst : ℕ) :
    (neighborhoodScore bins src dst =
      ∑ dr ∈ Finset.Icc (-1 : ℤ) 1, ∑ dc ∈ Finset.Icc (-1 : ℤ) 1,
        specNeighborhoodTerm bins src dst dr dc) ∧
    (∀ r dr, specNeighborhoodTerm bins (10 * r) dst dr (-1) = 0) ∧
    (∀ r dr, specNeighborhoodTerm bins (10 * r + 9) dst dr 1 = 0) ∧
    (∀ c dc, specNeighborhoodTerm bins (c % 10) dst (-1) dc = 0) ∧
    (∀ c dc, specNeighborhoodTerm bins (90 + c % 10) dst 1 dc = 0) := by
  refine ⟨?_, ?_, ?_, ?_, ?_⟩
  · have h0 := nbrContribution_eq_specTerm bins src dst 0 (-1) (-1) (by decide) (by decide)
    have h1 := nbrContribution_eq_specTerm bins src dst 1 (-1) 0 (by decide) (by decide)
    have h2 := nbrContribution_eq_specTerm bins src dst 2 (-1) 1 (by decide) (by decide)
    have h3 := nbrContribution_eq_specTerm bins src dst 3 0 (-1) (by decide) (by decide)
    have h4 := nbrContribution_eq_specTerm bins src dst 4 0 0 (by decide) (by decide)
    have h5 := nbrContribution_eq_specTerm bins src dst 5 0 1 (by decide) (by decide)
    have h6 := nbrContribution_eq_specTerm bins src dst 6 1 (-1) (by decide) (by decide)
    have h7 := nbrContribution_eq_specTerm bins src dst 7 1 0 (by decide) (by decide)
    have h8 := nbrContribution_eq_specTerm bins src dst 8 1 1 (by decide) (by decide)
    have hinner : ∀ dr : ℤ, ∑ dc ∈ Finset.Icc (-1 : ℤ) 1,
        specNeighborhoodTerm bins src dst dr dc =
        specNeighborhoodTerm bins src dst dr (-1) +
          specNeighborhoodTerm bins src dst dr 0 +
          specNeighborhoodTerm bins src dst dr 1 := by
      intro dr
      rw [show Finset.Icc (-1 : ℤ) 1 = {-1, 0, 1} from by decide]
      rw [Finset.sum_insert (by decide), Finset.sum_insert (by decide),
        Finset.sum_singleton]
      ring
    simp only [hinner]
    rw [show Finset.Icc (-1 : ℤ) 1 = {-1, 0, 1} from by decide]
    rw [Finset.sum_insert (by decide), Finset.sum_insert (by decide),
      Finset.sum_singleton]
    rw [neighborhoodScore]
    simp only [Finset.sum_range_succ, Finset.sum_range_zero]
    rw [h0, h1, h2, h3, h4, h5, h6, h7, h8]
    ring
  · intro r dr
    simp only [specNeighborhoodTerm, cellRow, cellCol, N]
    rw [if_neg]
    intro hcond
    omega
  · intro r dr
    simp only [specNeighborhoodTerm, cellRow, cellCol, N]
    rw [if_neg]
    intro hcond
    omega
  · intro c dc
    simp only [specNeighborhoodTerm, cellRow, cellCol, N]
    rw [if_neg]
    intro hcond
    omega
  · intro c dc
    simp only [specNeighborhoodTerm, cellRow, cellCol, N]
    rw [if_neg]
    intro hcond
    omega

/-! ## Assignment coverage -/

theorem sum_cellBins_eq_length (cms : List cellMatch)
    (h : ∀ c ∈ cms, c.src < N * N ∧ c.dst < N * N) :
    (∑ s ∈ Finset.range (N * N), ∑ d ∈ Finset.range (N * N), cellBinsOf cms s d) =
      cms.length := by
  induction cms with
  | nil => simp [cellBinsOf]
  | cons c t ih =>
    have hc := h c (List.mem_cons_self c t)
    have hrec := ih fun x hx => h x (List.mem_cons_of_mem c hx)
    have hsplit : ∀ s d, cellBinsOf (c :: t) s d =
        cellBinsOf t s d + if c.src = s ∧ c.dst = d then 1 else 0 := by
      intro s d
      rw [cellBinsOf, cellBinsOf, List.countP_cons]
      simp [decide_eq_true_eq]
    have hind : (∑ s ∈ Finset.range (N * N), ∑ d ∈ Finset.range (N * N),
        if c.src = s ∧ c.dst = d then 1 else 0) = 1 := by
      calc (∑ s ∈ Finset.range (N * N), ∑ d ∈ Finset.range (N * N),
            if c.src = s ∧ c.dst = d then 1 else 0)
          = ∑ s ∈ Finset.range (N * N), if c.src = s then (1 : ℕ) else 0 := by
            refine Finset.sum_congr rfl fun s _ => ?_
            by_cases hs : c.src = s
            · simp [hs, Finset.sum_ite_eq, Finset.mem_range.mpr hc.2]
            · simp [hs]
        _ = 1 := by rw [Finset.sum_ite_eq]; simp [Finset.mem_range.mpr hc.1]
    simp only [hsplit]
    simp only [Finset.sum_add_distrib]
    rw [hrec, hind]
    simp

theorem assignedCells_cells_lt (ms : List DMatch) (kp_1 kp_2 : List Point)
    (k dw1 dh1 dw2 dh2 : ℕ) :
    ∀ c ∈ assignedCells ms kp_1 kp_2 k dw1 dh1 dw2 dh2,
      c.src < N * N ∧ c.dst < N * N := by
  intro c hc
  simp only [assignedCells, List.mem_map] at hc
  obtain ⟨m, _, rfl⟩ := hc
  exact ⟨getGridIdxFromPoint_lt _ _ _ _ _, getGridIdxFromPoint_lt _ _ _ _ _⟩

/-- C6.  Under any offset configuration the assignment step assigns each
candidate match exactly once (the assigned cell-match list carries exactly
the input candidates, in order), and the bin counts it induces sum, over all
`(src, dst)` cell pairs, to the total number of candidates supplied. -/
theorem assignment_coverage (ms : List DMatch) (kp_1 kp_2 : List Point)
    (k dw1 dh1 dw2 dh2 : ℕ) :
    (assignedCells ms kp_1 kp_2 k dw1 dh1 dw2 dh2).map cellMatch.m = ms ∧
    (∑ s ∈ Finset.range (N * N), ∑ d ∈ Finset.range (N * N),
      cellBinsOf (assignedCells ms kp_1 kp_2 k dw1 dh1 dw2 dh2) s d) = ms.length := by
  constructor
  · simp [assignedCells, List.map_map, Function.comp_def]
  · rw [sum_cellBins_eq_length _ (assignedCells_cells_lt ms kp_1 kp_2 k dw1 dh1 dw2 dh2)]
    simp [assignedCells]

/-! ## Cross-offset deduplication -/

theorem sameMatchKey_iff (a b : DMatch) :
    sameMatchKey a b = true ↔ a.queryIdx = b.queryIdx ∧ a.trainIdx = b.trainIdx := by
  simp [sameMatchKey]

theorem sameMatchKey_self (a : DMatch) : sameMatchKey a a = true := by
  simp [sameMatchKey]

theorem sameMatchKey_false_iff (a b : DMatch) :
    sameMatchKey a b = false ↔ ¬(a.queryIdx = b.queryIdx ∧ a.trainIdx = b.trainIdx) := by
  simp [sameMatchKey]

theorem countP_dedupMatchesAux_of_seen (m₀ : DMatch) (l : List DMatch) :
    ∀ seen : List DMatch, (∃ x ∈ seen, sameMatchKey x m₀ = true) →
    (dedupMatchesAux seen l).countP (fun x => sameMatchKey x m₀) = 0 := by
  induction l with
  | nil =>
    intro seen _
    rfl
  | cons m t ih =>
    intro seen hseen
    unfold dedupMatchesAux
    by_cases hs : seen.any (fun x => sameMatchKey x m) = true
    · rw [if_pos hs]
      exact ih seen hseen
    · rw [if_neg hs, List.countP_cons]
      have hpm : sameMatchKey m m₀ = false := by
        cases hv : sameMatchKey m m₀
        · rfl
        · exfalso
          obtain ⟨x, hx, hxk⟩ := hseen
          refine hs (List.any_eq_true.mpr ⟨x, hx, ?_⟩)
          show sameMatchKey x m = true
          rw [sameMatchKey_iff] at hv hxk ⊢
          omega
      rw [ih (m :: seen) ⟨hseen.choose, List.mem_cons_of_mem m hseen.choose_spec.1,
        hseen.choose_spec.2⟩]
      simp [hpm]

theorem countP_dedupMatchesAux_of_fresh (m₀ : DMatch) (l : List DMatch) :
    ∀ seen : List DMatch, (∀ x ∈ seen, sameMatchKey x m₀ = false) →
    (dedupMatchesAux seen l).countP (fun x => sameMatchKey x m₀) =
      min 1 (l.countP fun x => sameMatchKey x m₀) := by
  induction l with
  | nil =>
    intro seen _
    rfl
  | cons m t ih =>
    intro seen hseen
    unfold dedupMatchesAux
    by_cases hs : seen.any (fun x => sameMatchKey x m) = true
    · rw [if_pos hs]
      have hpm : sameMatchKey m m₀ = false := by
        cases hv : sameMatchKey m m₀
        · rfl
        · exfalso
          obtain ⟨x, hx, hxk⟩ := List.any_eq_true.mp hs
          have hxf := hseen x hx
          simp only [sameMatchKey_iff, sameMatchKey_false_iff] at hv hxk hxf
          exact hxf ⟨by omega, by omega⟩
      rw [ih seen hseen, List.countP_cons]
      simp [hpm]
    · rw [if_neg hs, List.countP_cons]
      by_cases hpm : sameMatchKey m m₀ = true
      · rw [countP_dedupMatchesAux_of_seen m₀ t (m :: seen)
          ⟨m, List.mem_cons_self m seen, hpm⟩]
        rw [List.countP_cons]
        simp [hpm]
      · have hpm' : sameMatchKey m m₀ = false := by
          cases hv : sameMatchKey m m₀
          · rfl
          · exact absurd hv hpm
        have hseen' : ∀ x ∈ m :: seen, sameMatchKey x m₀ = false := by
          intro x hx
          rcases List.mem_cons.mp hx with rfl | hx'
          · exact hpm'
          · exact hseen x hx'
        rw [ih (m :: seen) hseen', List.countP_cons]
        simp [hpm']

theorem countP_dedupMatches (m₀ : DMatch) (l : List DMatch) :
    (dedupMatches l).countP (fun x => sameMatchKey x m₀) =
      min 1 (l.countP fun x => sameMatchKey x m₀) := by
  rw [dedupMatches]
  exact countP_dedupMatchesAux_of_fresh m₀ l [] (by simp)

/-- C7.  A candidate match confirmed as an inlier under two different offset
configurations appears exactly once in the final inlier set: the merge
deduplicates by the correspondence's keypoint-index pair (`sameMatchKey`),
the only identity a `DMatch` carries. -/
theorem crossoffset_inlier_once (ms : List DMatch) (kp_1 kp_2 : List Point)
    (dw1 dh1 dw2 dh2 : ℕ) (m : DMatch)
    (h : ∃ k₁ k₂, k₁ < 4 ∧ k₂ < 4 ∧ k₁ ≠ k₂ ∧
      m ∈ collectInliers (assignedCells ms kp_1 kp_2 k₁ dw1 dh1 dw2 dh2) ∧
      m ∈ collectInliers (assignedCells ms kp_1 kp_2 k₂ dw1 dh1 dw2 dh2)) :
    (runGMS ms kp_1 kp_2 dw1 dh1 dw2 dh2).countP (fun x => sameMatchKey x m) = 1 := by
  rw [runGMS, countP_dedupMatches]
  obtain ⟨k₁, _, hk₁, _, _, hm₁, _⟩ := h
  have hmem : m ∈ (List.range 4).flatMap
      (fun k => collectInliers (assignedCells ms kp_1 kp_2 k dw1 dh1 dw2 dh2)) :=
    List.mem_flatMap.mpr ⟨k₁, List.mem_range.mpr hk₁, hm₁⟩
  have hpos : 0 < ((List.range 4).flatMap
      (fun k => collectInliers (assignedCells ms kp_1 kp_2 k dw1 dh1 dw2 dh2))).countP
        (fun x => sameMatchKey x m) := by
    rw [List.countP_pos]
    exact ⟨m, hmem, sameMatchKey_self m⟩
  omega

/-- C10.  Zero candidate matches are not an error: every bin stays zero
under every offset configuration, and the final inlier set is empty. -/
theorem empty_candidates_empty_inliers (kp_1 kp_2 : List Point)
    (dw1 dh1 dw2 dh2 k src dst : ℕ) :
    runGMS [] kp_1 kp_2 dw1 dh1 dw2 dh2 = [] ∧
    cellBinsOf (assignedCells [] kp_1 kp_2 k dw1 dh1 dw2 dh2) src dst = 0 := by
  constructor
  · rw [runGMS]
    have h1 : ∀ k', collectInliers (assignedCells [] kp_1 kp_2 k' dw1 dh1 dw2 dh2) = [] := by
      intro k'
      simp [collectInliers, assignedCells, cellMatchIndexOf]
    have h2 : (List.range 4).flatMap
        (fun k' => collectInliers (assignedCells [] kp_1 kp_2 k' dw1 dh1 dw2 dh2)) = [] := by
      simp [h1]
    rw [h2]
    rfl
  · rfl

/-! ## Input validation -/

/-- C9.  `init` fails with `invalidInput` exactly when either supplied image
is null or empty — the failure is the immediate result of the call, with no
other outcome — and on two non-null, non-empty images it stores the two
borrowed images for the run. -/
theorem init_validates_input (o1 o2 : Option Image) :
    (init o1 o2 = .error .invalidInput ↔
      nullOrEmpty o1 = true ∨ nullOrEmpty o2 = true) ∧
    (∀ i1 i2, o1 = some i1 → o2 = some i2 →
      i1.isEmpty = false → i2.isEmpty = false →
      init o1 o2 = .ok ⟨i1, i2⟩) := by
  constructor
  · rcases o1 with _ | i1 <;> rcases o2 with _ | i2 <;>
      simp [init, nullOrEmpty] <;>
      by_cases h1 : i1.isEmpty <;>
      try by_cases h2 : i2.isEmpty <;>
      simp_all [init]
  · rintro i1 i2 rfl rfl h1 h2
    simp [init, h1, h2]

theorem init_validates_input_witness :
    ((init (some ⟨640, 480⟩) (some ⟨320, 240⟩) = .error .invalidInput ↔
      nullOrEmpty (some (⟨640, 480⟩ : Image)) = true ∨
        nullOrEmpty (some (⟨320, 240⟩ : Image)) = true)) ∧
    init (some ⟨640, 480⟩) (some ⟨320, 240⟩) = .ok ⟨⟨640, 480⟩, ⟨320, 240⟩⟩ :=
  ⟨(init_validates_input (some ⟨640, 480⟩) (some ⟨320, 240⟩)).1,
   (init_validates_input (some ⟨640, 480⟩) (some ⟨320, 240⟩)).2
     ⟨640, 480⟩ ⟨320, 240⟩ rfl rfl (by decide) (by decide)⟩

/-! ## Monotonicity of neighbourhood support -/

theorem sum_range_update (g g' : ℕ → ℕ) (K x δ : ℕ) (hx : x < K)
    (hgx : g' x = g x + δ) (ho : ∀ y, y ≠ x → g' y = g y) :
    ∑ y ∈ Finset.range K, g' y = (∑ y ∈ Finset.range K, g y) + δ := by
  have hxm : x ∈ Finset.range K := Finset.mem_range.mpr hx
  rw [← Finset.add_sum_erase _ g' hxm, ← Finset.add_sum_erase _ g hxm]
  have he : ∑ y ∈ (Finset.range K).erase x, g' y =
      ∑ y ∈ (Finset.range K).erase x, g y :=
    Finset.sum_congr rfl fun y hy => ho y (Finset.ne_of_mem_erase hy)
  omega

theorem binSum_update (bins bins' : ℕ → ℕ → ℕ) (s₀ d₀ δ : ℕ)
    (hs : s₀ < N * N) (hd : d₀ < N * N)
    (hupd : bins' s₀ d₀ = bins s₀ d₀ + δ)
    (hother : ∀ s t, ¬(s = s₀ ∧ t = d₀) → bins' s t = bins s t) :
    binSum bins' = binSum bins + δ := by
  unfold binSum
  refine sum_range_update _ _ _ s₀ δ hs ?_ ?_
  · exact sum_range_update _ _ _ d₀ δ hd hupd
      fun d hdne => hother s₀ d fun hk => hdne hk.2
  · intro y hy
    exact Finset.sum_congr rfl fun d _ => hother y d fun hk => hy hk.1

theorem nonzeroBinCount_mono (bins bins' : ℕ → ℕ → ℕ) (s₀ d₀ δ : ℕ)
    (hupd : bins' s₀ d₀ = bins s₀ d₀ + δ)
    (hother : ∀ s t, ¬(s = s₀ ∧ t = d₀) → bins' s t = bins s t) :
    nonzeroBinCount bins ≤ nonzeroBinCount bins' := by
  unfold nonzeroBinCount
  refine Finset.sum_le_sum fun s _ => Finset.sum_le_sum fun d _ => ?_
  by_cases h : s = s₀ ∧ d = d₀
  · obtain ⟨rfl, rfl⟩ := h
    rw [hupd]
    split_ifs <;> omega
  · rw [hother s d h]

theorem nbrContribution_mono (bins bins' : ℕ → ℕ → ℕ) (src dst j : ℕ)
    (hmono : ∀ s t, bins s t ≤ bins' s t) :
    nbrContribution bins src dst j ≤ nbrContribution bins' src dst j := by
  rcases hp : nbrPair src dst j with _ | p
  · simp [nbrContribution, hp]
  · simp only [nbrContribution, hp]
    exact hmono p.1 p.2

theorem neighborhoodScore_update (bins bins' : ℕ → ℕ → ℕ) (src dst s₀ d₀ δ : ℕ)
    (hnbr : ∃ j, j < 9 ∧ nbrPair src dst j = some (s₀, d₀))
    (hupd : bins' s₀ d₀ = bins s₀ d₀ + δ)
    (hother : ∀ s t, ¬(s = s₀ ∧ t = d₀) → bins' s t = bins s t) :
    neighborhoodScore bins src dst + δ ≤ neighborhoodScore bins' src dst := by
  obtain ⟨j₀, hj9, hjp⟩ := hnbr
  have hmono : ∀ s t, bins s t ≤ bins' s t := by
    intro s t
    by_cases h : s = s₀ ∧ t = d₀
    · obtain ⟨rfl, rfl⟩ := h
      rw [hupd]
      omega
    · rw [hother s t h]
  have hj₀mem : j₀ ∈ Finset.range 9 := Finset.mem_range.mpr hj9
  unfold neighborhoodScore
  rw [← Finset.add_sum_erase _ (nbrContribution bins src dst) hj₀mem,
      ← Finset.add_sum_erase _ (nbrContribution bins' src dst) hj₀mem]
  have h1 : nbrContribution bins' src dst j₀ = nbrContribution bins src dst j₀ + δ := by
    simp [nbrContribution, hjp, hupd]
  have h2 : ∑ j ∈ (Finset.range 9).erase j₀, nbrContribution bins src dst j ≤
      ∑ j ∈ (Finset.range 9).erase j₀, nbrContribution bins' src dst j :=
    Finset.sum_le_sum fun j _ => nbrContribution_mono bins bins' src dst j hmono
  omega

/-- C8.  If a cell pair `(src, dst)` is accepted, then adding `δ > 0` matches
to any single one of its 9 neighbour cell pairs — everything else held
fixed — cannot decrease its neighbourhood score, and the pair remains
accepted (the adaptive threshold grows at most like `0.15·√δ`, strictly
slower than the score's growth `δ`). -/
theorem monotonic_support (bins bins' : ℕ → ℕ → ℕ) (src dst s₀ d₀ δ : ℕ)
    (hδ : 0 < δ)
    (hnbr : ∃ j, j < 9 ∧ nbrPair src dst j = some (s₀, d₀))
    (hupd : bins' s₀ d₀ = bins s₀ d₀ + δ)
    (hother : ∀ s t, ¬(s = s₀ ∧ t = d₀) → bins' s t = bins s t)
    (hacc : acceptCellPair bins src dst = true) :
    neighborhoodScore bins src dst ≤ neighborhoodScore bins' src dst ∧
    acceptCellPair bins' src dst = true := by
  obtain ⟨j₀, hj9, hjp⟩ := hnbr
  obtain ⟨hs₀, hd₀⟩ := nbrPair_mem_grid src dst j₀ s₀ d₀ hjp
  have hscore := neighborhoodScore_update bins bins' src dst s₀ d₀ δ ⟨j₀, hj9, hjp⟩ hupd hother
  have hS := binSum_update bins bins' s₀ d₀ δ hs₀ hd₀ hupd hother
  have hC := nonzeroBinCount_mono bins bins' s₀ d₀ δ hupd hother
  rw [acceptCellPair, decide_eq_true_eq] at hacc ⊢
  refine ⟨by omega, ?_⟩
  have hc1 : 0 < nonzeroBinCount bins := by
    rcases Nat.eq_zero_or_pos (nonzeroBinCount bins) with h | h
    · rw [h] at hacc
      norm_num at hacc
    · exact h
  have e1 : 400 * nonzeroBinCount bins * (neighborhoodScore bins src dst + δ) ^ 2 ≤
      400 * nonzeroBinCount bins' * neighborhoodScore bins' src dst ^ 2 :=
    Nat.mul_le_mul (Nat.mul_le_mul_left 400 hC)
      (Nat.pow_le_pow_left (by omega) 2)
  have hδ2 : δ ≤ δ ^ 2 := by
    calc δ = δ * 1 := (Nat.mul_one δ).symm
      _ ≤ δ * δ := Nat.mul_le_mul_left δ hδ
      _ = δ ^ 2 := (sq δ).symm
  have h3 : 400 * δ ≤ 400 * nonzeroBinCount bins *
      (2 * neighborhoodScore bins src dst * δ + δ ^ 2) := by
    have ha : δ ≤ 2 * neighborhoodScore bins src dst * δ + δ ^ 2 := by
      have : 0 ≤ 2 * neighborhoodScore bins src dst * δ := Nat.zero_le _
      omega
    calc 400 * δ ≤ 400 * (2 * neighborhoodScore bins src dst * δ + δ ^ 2) :=
          Nat.mul_le_mul_left 400 ha
      _ = 400 * 1 * (2 * neighborhoodScore bins src dst * δ + δ ^ 2) := by ring
      _ ≤ 400 * nonzeroBinCount bins *
            (2 * neighborhoodScore bins src dst * δ + δ ^ 2) :=
          Nat.mul_le_mul_right _ (by omega)
  have hexp : 400 * nonzeroBinCount bins * (neighborhoodScore bins src dst + δ) ^ 2 =
      400 * nonzeroBinCount bins * neighborhoodScore bins src dst ^ 2 +
      400 * nonzeroBinCount bins *
        (2 * neighborhoodScore bins src dst * δ + δ ^ 2) := by ring
  have e2 : 9 * (binSum bins + δ) <
      400 * nonzeroBinCount bins * (neighborhoodScore bins src dst + δ) ^ 2 := by
    linarith [hacc, h3, hδ]
  rw [hS]
  exact lt_of_lt_of_le e2 e1

set_option maxRecDepth 4000 in
set_option maxHeartbeats 2000000 in
theorem monotonic_support_witness :
    0 < 1 ∧
    (∃ j, j < 9 ∧ nbrPair 0 0 j = some (11, 11)) ∧
    binsB 11 11 = binsA 11 11 + 1 ∧
    (∀ s t, ¬(s = 11 ∧ t = 11) → binsB s t = binsA s t) ∧
    acceptCellPair binsA 0 0 = true ∧
    (neighborhoodScore binsA 0 0 ≤ neighborhoodScore binsB 0 0 ∧
      acceptCellPair binsB 0 0 = true) := by
  have hother : ∀ s t, ¬(s = 11 ∧ t = 11) → binsB s t = binsA s t := by
    intro s t h
    simp only [binsA, binsB]
    split_ifs <;> first | rfl | exact absurd ‹s = 11 ∧ t = 11› h
  have hnbr : ∃ j, j < 9 ∧ nbrPair 0 0 j = some (11, 11) := ⟨8, by decide, by decide⟩
  have hupd : binsB 11 11 = binsA 11 11 + 1 := by decide
  have hacc : acceptCellPair binsA 0 0 = true := by decide
  exact ⟨Nat.one_pos, hnbr, hupd, hother, hacc,
    monotonic_support binsA binsB 0 0 11 11 1 Nat.one_pos hnbr hupd hother hacc⟩

set_option maxRecDepth 4000 in
set_option maxHeartbeats 4000000 in
theorem crossoffset_inlier_once_witness :
    (∃ k₁ k₂, k₁ < 4 ∧ k₂ < 4 ∧ k₁ ≠ k₂ ∧
      (⟨0, 0⟩ : DMatch) ∈ collectInliers
        (assignedCells [⟨0, 0⟩] [⟨0, 0⟩] [⟨0, 0⟩] k₁ 10 10 10 10) ∧
      (⟨0, 0⟩ : DMatch) ∈ collectInliers
        (assignedCells [⟨0, 0⟩] [⟨0, 0⟩] [⟨0, 0⟩] k₂ 10 10 10 10)) ∧
    (runGMS [⟨0, 0⟩] [⟨0, 0⟩] [⟨0, 0⟩] 10 10 10 10).countP
      (fun x => sameMatchKey x ⟨0, 0⟩) = 1 := by
  have h : ∃ k₁ k₂, k₁ < 4 ∧ k₂ < 4 ∧ k₁ ≠ k₂ ∧
      (⟨0, 0⟩ : DMatch) ∈ collectInliers
        (assignedCells [⟨0, 0⟩] [⟨0, 0⟩] [⟨0, 0⟩] k₁ 10 10 10 10) ∧
      (⟨0, 0⟩ : DMatch) ∈ collectInliers
        (assignedCells [⟨0, 0⟩] [⟨0, 0⟩] [⟨0, 0⟩] k₂ 10 10 10 10) :=
    ⟨0, 1, by decide, by decide, by decide, by decide, by decide⟩
  exact ⟨h, crossoffset_inlier_once _ _ _ _ _ _ _ _ h⟩

end GMS
